import Mathlib

/-!
Shallow embedding of the polling core of the `futures-rs` repository:
the `Poll` vocabulary, the `Chain`/`TryChain` sequential state machines
(`src/futures-util/src/future/chain.rs`, `src/futures-util/src/try_future/try_chain.rs`),
`CatchUnwind` (`src/futures-util/src/future/catch_unwind.rs`),
`Fuse` (`src/futures-util/src/stream/fuse.rs`),
the Arc-backed waker vtable (`src/futures-util/src/task/arc_wake.rs`),
and `FuturesOrdered` (`src/futures-util/src/stream/futures_ordered.rs`).

Machine-level conventions of the embedding:
* A `Poll<T>` value is the inductive `Poll`.
* A future is a deterministic state machine `FutM`: `poll` takes the current
  state and returns the poll result together with the successor state (Rust
  mutates the future in place through `Pin<&mut Self>`).
* A future or stream whose `poll` may unwind (panic) is a `PFutM`; `Except`
  separates normal returns from panics, and functions of the repository that
  can themselves panic (`unreachable!`, `Option::unwrap`, explicit `panic!`
  calls) return `Except String`, the error carrying the panic message.
* Wakers carry no information relevant to the claims (none of the embedded
  functions inspect the waker; they only forward it), so they are omitted.
-/

namespace FuturesRs

/-- `Poll<T>`: the two-variant poll result from `futures-core`. -/
inductive Poll (α : Type) where
  | pending
  | ready (value : α)
  deriving Repr, DecidableEq

/-- `Poll::map`, as used by `OrderWrapper::poll` and `CatchUnwind::poll`. -/
def Poll.map {α β : Type} (f : α → β) : Poll α → Poll β
  | .pending => .pending
  | .ready v => .ready (f v)

/-- A future as a deterministic state machine: `poll` consumes the current
state (the `Pin<&mut Self>` receiver) and produces the poll result and the
mutated state. -/
structure FutM (σ α : Type) where
  poll : σ → Poll α × σ

/-- Iterated polling: `iter m s n` is the state of the future after `n` polls
starting from state `s`. -/
def FutM.iter (m : FutM σ α) (s : σ) : Nat → σ
  | 0 => s
  | n + 1 => (m.poll (m.iter s n)).2

/-- The result of poll number `n + 1` (0-based `n`) of the future started in
state `s`. -/
def FutM.res (m : FutM σ α) (s : σ) (n : Nat) : Poll α :=
  (m.poll (m.iter s n)).1

/-- A future (or stream, with `α := Option ι`) whose `poll` may unwind:
`.error e` is a panic with payload `e`, `.ok` a normal return. -/
structure PFutM (σ α π : Type) where
  poll : σ → Except π (Poll α × σ)

/-! ## The `Chain` state machine (`future/chain.rs`) -/

/-- `enum Chain<Fut1, Fut2, Data> { First(Fut1, Option<Data>), Second(Fut2), Empty }`.
`σ1`, `σ2` are the state types of the two futures. -/
inductive Chain (σ1 σ2 δ : Type) where
  | first (fut1 : σ1) (data : Option δ)
  | second (fut2 : σ2)
  | empty
  deriving Repr, DecidableEq

/-- `Chain::is_terminated`: `if let Chain::Empty = *self { true } else { false }`. -/
def Chain.is_terminated : Chain σ1 σ2 δ → Bool
  | .empty => true
  | _ => false

/-- `Chain::new(fut1, data) = Chain::First(fut1, Some(data))`. -/
def Chain.new (fut1 : σ1) (data : δ) : Chain σ1 σ2 δ :=
  .first fut1 (some data)

/-- `Chain::poll`.  The source's `loop` runs at most twice (the `First` arm
either returns or installs `Second` and re-enters, and the `Second` arm always
returns), so it is unrolled here.  `data.take().unwrap()` panics when the data
is already gone, and the `Empty` arm is `unreachable!()`; both are `.error`
with the corresponding Rust panic message. -/
def Chain.poll (m1 : FutM σ1 α) (m2 : FutM σ2 β) (f : α → δ → σ2) :
    Chain σ1 σ2 δ → Except String (Poll β × Chain σ1 σ2 δ)
  | .first fut1 data =>
    match m1.poll fut1 with
    | (.pending, fut1x) => .ok (.pending, .first fut1x data)
    | (.ready output, _) =>
      match data with
      | none => .error "called `Option::unwrap()` on a `None` value"
      | some d =>
        -- *this = Chain::Empty (drops fut1); fut2 = f(output, data);
        -- *this = Chain::Second(fut2); loop back into the Second arm.
        match m2.poll (f output d) with
        | (p, fut2x) => .ok (p, .second fut2x)
  | .second fut2 =>
    match m2.poll fut2 with
    | (p, fut2x) => .ok (p, .second fut2x)
  | .empty => .error "internal error: entered unreachable code"

/-- State of a `Chain` after `n` calls to `poll` (propagating a panic, should
one occur). -/
def chainStates (m1 : FutM σ1 α) (m2 : FutM σ2 β) (f : α → δ → σ2)
    (c : Chain σ1 σ2 δ) : Nat → Except String (Chain σ1 σ2 δ)
  | 0 => .ok c
  | n + 1 =>
    match chainStates m1 m2 f c n with
    | .error e => .error e
    | .ok cx =>
      match Chain.poll m1 m2 f cx with
      | .error e => .error e
      | .ok (_, cy) => .ok cy

/-- Result of poll number `n + 1` (0-based `n`) of a `Chain`. -/
def chainRes (m1 : FutM σ1 α) (m2 : FutM σ2 β) (f : α → δ → σ2)
    (c : Chain σ1 σ2 δ) (n : Nat) : Except String (Poll β) :=
  match chainStates m1 m2 f c n with
  | .error e => .error e
  | .ok cx =>
    match Chain.poll m1 m2 f cx with
    | .error e => .error e
    | .ok (r, _) => .ok r

/-! ## The `TryChain` state machine (`try_future/try_chain.rs`) -/

/-- `enum TryChainAction<Fut2> { Future(Fut2), Output(Result<Fut2::Ok, Fut2::Error>) }`;
`β` stands for the whole `Result<Fut2::Ok, Fut2::Error>` payload type. -/
inductive TryChainAction (σ2 β : Type) where
  | future (fut2 : σ2)
  | output (res : β)
  deriving Repr, DecidableEq

/-- `enum TryChain<Fut1, Fut2, Data> { First(Fut1, Option<Data>), Second(Fut2), Empty }`. -/
inductive TryChain (σ1 σ2 δ : Type) where
  | first (fut1 : σ1) (data : Option δ)
  | second (fut2 : σ2)
  | empty
  deriving Repr, DecidableEq

/-- `TryChain::new(fut1, data) = TryChain::First(fut1, Some(data))`. -/
def TryChain.new (fut1 : σ1) (data : δ) : TryChain σ1 σ2 δ :=
  .first fut1 (some data)

/-- `TryChain::is_terminated`, exactly as written in the source:
`First(..) | Second(_) => true, Empty => false`. -/
def TryChain.is_terminated : TryChain σ1 σ2 δ → Bool
  | .first _ _ => true
  | .second _ => true
  | .empty => false

/-- `TryChain::poll`.  As for `Chain::poll`, the `loop` is unrolled (one
re-entry at most); the `Empty` arm is the explicit
`panic!("future must not be polled after it returned `Poll::Ready`")`. -/
def TryChain.poll (m1 : FutM σ1 α) (m2 : FutM σ2 β)
    (f : α → δ → TryChainAction σ2 β) :
    TryChain σ1 σ2 δ → Except String (Poll β × TryChain σ1 σ2 δ)
  | .first fut1 data =>
    match m1.poll fut1 with
    | (.pending, fut1x) => .ok (.pending, .first fut1x data)
    | (.ready output, _) =>
      match data with
      | none => .error "called `Option::unwrap()` on a `None` value"
      | some d =>
        -- *this = TryChain::Empty (drops fut1), then dispatch on f(output, data)
        match f output d with
        | .future fut2 =>
          -- *this = TryChain::Second(fut2); loop back into the Second arm.
          match m2.poll fut2 with
          | (p, fut2x) => .ok (p, .second fut2x)
        | .output res => .ok (.ready res, .empty)
  | .second fut2 =>
    match m2.poll fut2 with
    | (p, fut2x) => .ok (p, .second fut2x)
  | .empty => .error "future must not be polled after it returned `Poll::Ready`"

/-! ## `CatchUnwind` (`future/catch_unwind.rs`) -/

/-- `CatchUnwind::poll`:
`match catch_unwind(AssertUnwindSafe(|| self.future().poll(waker))) { Ok(res) => res.map(Ok), Err(e) => Poll::Ready(Err(e)) }`.
The inner future is a possibly-panicking machine `m`; a caught panic leaves the
inner future's state as it was at the call (the payload is all that escapes). -/
def CatchUnwind.poll (m : PFutM σ α π) (s : σ) : Poll (Except π α) × σ :=
  match m.poll s with
  | .ok res => (res.1.map Except.ok, res.2)
  | .error e => (.ready (.error e), s)

/-! ## `Fuse` (`stream/fuse.rs`) -/

/-- `struct Fuse<St> { stream: St, done: bool }`. -/
structure Fuse (σ : Type) where
  stream : σ
  done : Bool
  deriving Repr, DecidableEq

/-- `Fuse::new(stream) = Fuse { stream, done: false }`. -/
def Fuse.new (stream : σ) : Fuse σ := ⟨stream, false⟩

/-- `impl FusedStream for Fuse`: `is_terminated() = self.done`. -/
def Fuse.is_terminated (s : Fuse σ) : Bool := s.done

/-- `Fuse::poll_next`.  The inner stream is a possibly-panicking machine
(`α := Option ι`, terminal marker `ready none`).  The third component of the
result records whether the underlying stream's `poll_next` was invoked during
this call.  The `done` flag is set exactly by `if item.is_none() { *done = true }`. -/
def Fuse.poll_next (m : PFutM σ (Option ι) π) (s : Fuse σ) :
    Except π (Poll (Option ι) × Fuse σ × Bool) :=
  if s.done then
    .ok (.ready none, s, false)
  else
    match m.poll s.stream with
    | .error e => .error e
    | .ok (.pending, stx) => .ok (.pending, ⟨stx, s.done⟩, true)
    | .ok (.ready item, stx) =>
      .ok (.ready item, ⟨stx, if item.isNone then true else s.done⟩, true)

/-- State of a `Fuse` after `n` calls to `poll_next` (propagating a panic of
the underlying stream, should one escape). -/
def fuseStates (m : PFutM σ (Option ι) π) (s : Fuse σ) : Nat → Except π (Fuse σ)
  | 0 => .ok s
  | n + 1 =>
    match fuseStates m s n with
    | .error e => .error e
    | .ok sx =>
      match Fuse.poll_next m sx with
      | .error e => .error e
      | .ok (_, sy, _) => .ok sy

/-- Outcome of call number `n + 1` (0-based `n`) of `poll_next` on a `Fuse`. -/
def fuseStep (m : PFutM σ (Option ι) π) (s : Fuse σ) (n : Nat) :
    Except π (Poll (Option ι) × Fuse σ × Bool) :=
  match fuseStates m s n with
  | .error e => .error e
  | .ok sx => Fuse.poll_next m sx

/-! ## The Arc-backed waker vtable (`task/arc_wake.rs`)

The owner object behind the raw pointer is abstracted to the two counters the
claims speak about: its strong reference count and the number of times its
`ArcWake::wake` implementation has been invoked.  The `Arc` primitives used by
the source are modelled by their documented effect on the strong count:
`Arc::from_raw` takes over an existing logical reference (count unchanged),
`clone` adds one, dropping a handle removes one, `mem::forget` suppresses a
drop (no effect). -/

/-- Owner state observed through the raw pointer: strong reference count and
observed wake count. -/
structure ArcState where
  strong : Nat
  wakes : Nat
  deriving Repr, DecidableEq

/-- `RawWaker::new(data, vtable)`: a data pointer plus a vtable, both abstract
identifiers here. -/
structure RawWaker where
  data : Nat
  vtable : Nat
  deriving Repr, DecidableEq

/-- `Arc::from_raw`: reconstructs a handle from the raw pointer; the count is
not changed. -/
def Arc.from_raw (s : ArcState) : ArcState := s

/-- `arc.clone()`: bumps the strong count. -/
def Arc.clone (s : ArcState) : ArcState := { s with strong := s.strong + 1 }

/-- Dropping an `Arc` handle: releases one strong reference. -/
def Arc.drop (s : ArcState) : ArcState := { s with strong := s.strong - 1 }

/-- `mem::forget(arc)`: the handle's drop never runs. -/
def mem_forget (s : ArcState) : ArcState := s

/-- The owner's `ArcWake::wake(arc_self)` implementation, observed as one more
recorded wake (the `CountingWaker` of the source's own test). -/
def ArcWake.wake (s : ArcState) : ArcState := { s with wakes := s.wakes + 1 }

/-- `increase_refcount::<T>(data)`:
`let arc = Arc::from_raw(data); let arc_clone = arc.clone(); mem::forget(arc); mem::forget(arc_clone);`. -/
def increase_refcount (s : ArcState) : ArcState :=
  mem_forget (mem_forget (Arc.clone (Arc.from_raw s)))

/-- `clone_arc_raw::<T>(data)`: bump the refcount, then
`RawWaker::new(data, waker_vtable!(T))`.  `ptr` is the data pointer, `vt` the
vtable of `T` currently in use. -/
def clone_arc_raw (ptr vt : Nat) (s : ArcState) : ArcState × RawWaker :=
  (increase_refcount s, ⟨ptr, vt⟩)

/-- `drop_arc_raw::<T>(data)`: `drop(Arc::from_raw(data))`. -/
def drop_arc_raw (s : ArcState) : ArcState :=
  Arc.drop (Arc.from_raw s)

/-- `wake_arc_raw::<T>(data)`:
`let arc = Arc::from_raw(data); ArcWake::wake(&arc); mem::forget(arc);`. -/
def wake_arc_raw (s : ArcState) : ArcState :=
  mem_forget (ArcWake.wake (Arc.from_raw s))

/-! ## `FuturesUnordered` (modelled) and `FuturesOrdered` (`stream/futures_ordered.rs`) -/

/-- Modelled from the spec: the `FuturesUnordered` implementation itself is
not among the provided source files (only its tests and its consumers are).
Following spec §4.4, the registry is abstracted to the oracle trace of its
`poll_next` outcomes: each `some v` entry is a call on which the registry
completes a future with output `v` (completion order is arbitrary, fixed by
the trace), each `none` entry is a call on which the ready-queue empties
without an output while slots remain (`Pending`), and exhaustion of the trace
is the empty registry (`Ready(None)`). -/
abbrev FuturesUnordered (α : Type) : Type := List (Option α)

/-- Modelled from the spec: `FuturesUnordered::poll_next` — yields the next
completion, `pending` on a no-output wake round, and `ready none` once the
registry is empty. -/
def pollNextU : FuturesUnordered α → Poll (Option α) × FuturesUnordered α
  | [] => (.ready none, [])
  | some v :: rest => (.ready (some v), rest)
  | none :: rest => (.pending, rest)

/-- Full result trace of repeatedly calling `pollNextU` until the first
`ready none` (inclusive). -/
def runU : FuturesUnordered α → List (Poll (Option α))
  | [] => [.ready none]
  | some v :: rest => .ready (some v) :: runU rest
  | none :: rest => .pending :: runU rest

/-- The output carried by one poll result, if any. -/
def pollValue : Poll (Option α) → Option α
  | .ready (some v) => some v
  | _ => none

/-- The poll result corresponding to one oracle-trace entry. -/
def eventPoll : Option α → Poll (Option α)
  | some v => .ready (some v)
  | none => .pending

/-- `struct OrderWrapper<T> { data: T, index: usize }`.  For a completed
wrapper, `data` is the future's output. -/
structure OrderWrapper (α : Type) where
  data : α
  index : Nat
  deriving Repr, DecidableEq

/-- `BinaryHeap<OrderWrapper<T>>` push.  The source's `Ord` on `OrderWrapper`
compares indices backwards, so the max-heap surfaces the smallest index; the
heap is modelled as a list kept sorted by ascending index, with the head as
`peek`.  `heapPush` is ordered insertion. -/
def heapPush (x : OrderWrapper α) : List (OrderWrapper α) → List (OrderWrapper α)
  | [] => [x]
  | y :: ys => if x.index ≤ y.index then x :: y :: ys else y :: heapPush x ys

/-- `struct FuturesOrdered<T>` with its four fields.  `in_progress_queue` is
the inner `FuturesUnordered<OrderWrapper<T>>`, in the oracle-trace model: its
`some` entries are the pushed wrappers in the order in which the inner registry
will complete them. -/
structure FuturesOrdered (α : Type) where
  in_progress_queue : FuturesUnordered (OrderWrapper α)
  queued_outputs : List (OrderWrapper α)
  next_incoming_index : Nat
  next_outgoing_index : Nat
  deriving Repr, DecidableEq

/-- `FuturesOrdered::new()`: everything empty, both indices 0. -/
def FuturesOrdered.new (α : Type) : FuturesOrdered α :=
  ⟨[], [], 0, 0⟩

/-- `FuturesOrdered::len()`: in-flight plus staged. -/
def FuturesOrdered.len (s : FuturesOrdered α) : Nat :=
  s.in_progress_queue.length + s.queued_outputs.length

/-- `FuturesOrdered::push(future)`: stamp the future with
`next_incoming_index`, bump the index, hand the wrapper to the inner registry.
The pushed future is represented by its eventual output `v`; since the inner
registry completes its futures in an arbitrary order, the wrapper's completion
event is inserted at an arbitrary position `pos` of the oracle trace (clamped
to the end). -/
def FuturesOrdered.pushAt (s : FuturesOrdered α) (v : α) (pos : Nat) :
    FuturesOrdered α :=
  { s with
    in_progress_queue :=
      s.in_progress_queue.insertIdx (min pos s.in_progress_queue.length)
        (some ⟨v, s.next_incoming_index⟩),
    next_incoming_index := s.next_incoming_index + 1 }

/-- Oracle-only event: the inner registry may report a no-output wake round
(`Pending`) at any point while futures are in flight; this inserts such a
round into the trace (clamped to the end). -/
def FuturesOrdered.insertPendingAt (s : FuturesOrdered α) (pos : Nat) :
    FuturesOrdered α :=
  { s with
    in_progress_queue :=
      s.in_progress_queue.insertIdx (min pos s.in_progress_queue.length) none }

/-- The `loop` of `FuturesOrdered::poll_next`: repeatedly poll the inner
registry (`pollNextU` inlined); a completion whose index matches
`next_outgoing_index` is returned and the index bumped, any other completion
is pushed onto the staging heap, `Pending` and `Ready(None)` are returned
as-is.  Returns the poll result with the updated
`(next_outgoing_index, queued_outputs, in_progress_queue)`. -/
def pollLoop (out : Nat) (heap : List (OrderWrapper α)) :
    FuturesUnordered (OrderWrapper α) →
      Poll (Option α) × Nat × List (OrderWrapper α) × FuturesUnordered (OrderWrapper α)
  | [] => (.ready none, out, heap, [])
  | none :: rest => (.pending, out, heap, rest)
  | some w :: rest =>
    if w.index = out then (.ready (some w.data), out + 1, heap, rest)
    else pollLoop out (heapPush w heap) rest

/-- The loop part of `poll_next` reassembled into a full state. -/
def FuturesOrdered.pollInto (s : FuturesOrdered α) :
    Poll (Option α) × FuturesOrdered α :=
  match pollLoop s.next_outgoing_index s.queued_outputs s.in_progress_queue with
  | (r, out, heap, sched) => (r, ⟨sched, heap, s.next_incoming_index, out⟩)

/-- `FuturesOrdered::poll_next`: first check whether the staging heap's
minimum is the next due index (`peek_mut` + conditional `PeekMut::pop`), then
fall into the draining loop over the inner registry. -/
def FuturesOrdered.poll_next (s : FuturesOrdered α) :
    Poll (Option α) × FuturesOrdered α :=
  match s.queued_outputs with
  | next :: restHeap =>
    if next.index = s.next_outgoing_index then
      (.ready (some next.data),
        { s with
          queued_outputs := restHeap,
          next_outgoing_index := s.next_outgoing_index + 1 })
    else s.pollInto
  | [] => s.pollInto

/-- Repeatedly call `poll_next`, collecting the yielded outputs, until the
stream reports exhaustion (`ready none`) or the fuel runs out. -/
def FuturesOrdered.drainFuel : Nat → FuturesOrdered α → List α
  | 0, _ => []
  | fuel + 1, s =>
    match s.poll_next with
    | (.ready none, _) => []
    | (.ready (some v), sx) => v :: FuturesOrdered.drainFuel fuel sx
    | (.pending, sx) => FuturesOrdered.drainFuel fuel sx

/-- The multiset of live wrappers of a `FuturesOrdered`: staged outputs plus
in-flight completions. -/
def FuturesOrdered.wrappers (s : FuturesOrdered α) : List (OrderWrapper α) :=
  s.queued_outputs ++ s.in_progress_queue.filterMap id

/-- Size measure driving termination of draining. -/
def FuturesOrdered.measure (s : FuturesOrdered α) : Nat :=
  s.in_progress_queue.length + s.queued_outputs.length

/-- Heap order of the staging heap model: sorted by ascending index. -/
def heapSorted (heap : List (OrderWrapper α)) : Prop :=
  heap.Pairwise (fun a b => a.index ≤ b.index)

/-- Well-formedness of a `FuturesOrdered` state: the staging heap is a heap,
outputs never run ahead of inputs, and the live wrappers carry exactly the
indices `next_outgoing_index, …, next_incoming_index - 1`, each once. -/
def FuturesOrdered.wf (s : FuturesOrdered α) : Prop :=
  heapSorted s.queued_outputs ∧
  s.next_outgoing_index ≤ s.next_incoming_index ∧
  (s.wrappers.map OrderWrapper.index).Perm
    (List.range' s.next_outgoing_index
      (s.next_incoming_index - s.next_outgoing_index))

/-- What one `poll_next` call does on a non-empty well-formed state: either
it emits the output of the wrapper whose index is `next_outgoing_index`
(removing exactly that wrapper), or it reports a pending round — in both
cases preserving well-formedness and shrinking the measure. -/
def FuturesOrdered.stepSpec (s : FuturesOrdered α) : Prop :=
  (∃ w sx, s.poll_next = (.ready (some w.data), sx) ∧
    w.index = s.next_outgoing_index ∧
    sx.wf ∧
    sx.next_outgoing_index = s.next_outgoing_index + 1 ∧
    sx.next_incoming_index = s.next_incoming_index ∧
    (w :: sx.wrappers).Perm s.wrappers ∧
    sx.measure < s.measure) ∨
  (∃ sx, s.poll_next = (.pending, sx) ∧
    sx.wf ∧
    sx.next_outgoing_index = s.next_outgoing_index ∧
    sx.next_incoming_index = s.next_incoming_index ∧
    sx.wrappers.Perm s.wrappers ∧
    sx.measure < s.measure)

/-- States reachable from `FuturesOrdered::new` by any interleaving of
`push` (with an arbitrary completion slot for the new future), inner-registry
pending rounds, and `poll_next`. -/
inductive FuturesOrdered.Reach : FuturesOrdered α → Prop
  | new : FuturesOrdered.Reach (FuturesOrdered.new α)
  | push (v : α) (pos : Nat) {s : FuturesOrdered α} :
      FuturesOrdered.Reach s → FuturesOrdered.Reach (s.pushAt v pos)
  | pendingRound (pos : Nat) {s : FuturesOrdered α} :
      FuturesOrdered.Reach s → FuturesOrdered.Reach (s.insertPendingAt pos)
  | poll {s : FuturesOrdered α} :
      FuturesOrdered.Reach s → FuturesOrdered.Reach s.poll_next.2

/-! ## Concrete machines used to instantiate the theorems -/

/-- A future that is immediately ready with value 7. -/
def exampleReady7 : FutM Unit Nat := ⟨fun _ => (.ready 7, ())⟩

/-- A future that is immediately ready with value 9. -/
def exampleReady9 : FutM Unit Nat := ⟨fun _ => (.ready 9, ())⟩

/-- A countdown future: state `n` returns `pending` and counts down while
`n > 0`, and is ready with value `v` at state `0`. -/
def exampleCountdown (v : Nat) : FutM Nat Nat :=
  ⟨fun n => if n = 0 then (.ready v, 0) else (.pending, n - 1)⟩

/-- A transform for `TryChain` that can take either action: on `true` data it
short-circuits to an output, on `false` data it installs a second future. -/
def exampleTryTransform : Nat → Bool → TryChainAction Unit Nat :=
  fun out d => if d then .output (out + 1) else .future ()

/-- A stream that yields `5`, then terminates, then panics on any further
poll — the shape `Fuse` exists to protect against. -/
def exampleFuseStream : PFutM Nat (Option Nat) String :=
  ⟨fun n =>
    match n with
    | 0 => .ok (.ready (some 5), 1)
    | 1 => .ok (.ready none, 2)
    | _ => .error "stream polled after termination"⟩

/-- A future that is pending once, ready once, and panics afterwards. -/
def exampleUnwindFut : PFutM Nat Nat String :=
  ⟨fun n =>
    match n with
    | 0 => .ok (.pending, 1)
    | 1 => .ok (.ready 42, 2)
    | _ => .error "boom"⟩

/-! ## Theorems -/

/-- C5: polling a `Chain` or a `TryChain` whose state is `Empty` never
returns a value: for every pair of inner futures and every transform, both
panic (the `unreachable!()` of `chain.rs` and the explicit `panic!` of
`try_chain.rs`), signaling poll-after-completion. -/
theorem chain_poll_empty_panics
    (m1 : FutM σ1 α) (m2 : FutM σ2 β) (f : α → δ → σ2)
    (g : α → δ → TryChainAction σ2 β) :
    Chain.poll m1 m2 f Chain.empty =
      .error "internal error: entered unreachable code" ∧
    TryChain.poll m1 m2 g TryChain.empty =
      .error "future must not be polled after it returned `Poll::Ready`" :=
  ⟨rfl, rfl⟩

/-- C4: a `TryChain` in state `First` whose first future yields `Ready(output)`
during a poll: if `transform(output, data)` is `TryChainAction::Output(r)`,
that very call returns `Ready(r)` and the final state is `Empty` (no second
future installed — the result does not depend on `m2` at all); if it is
`TryChainAction::Future(fut2)`, the state becomes `Second` holding `fut2`'s
post-poll state and the call returns `fut2`'s poll result, i.e. `fut2` was
polled within the same call. -/
theorem try_chain_first_ready_dispatch
    (m1 : FutM σ1 α) (m2 : FutM σ2 β) (f : α → δ → TryChainAction σ2 β)
    (s1 : σ1) (d : δ) (out : α) (s1x : σ1)
    (h1 : m1.poll s1 = (.ready out, s1x)) :
    (∀ r, f out d = .output r →
      TryChain.poll m1 m2 f (.first s1 (some d)) = .ok (.ready r, .empty)) ∧
    (∀ s2, f out d = .future s2 →
      TryChain.poll m1 m2 f (.first s1 (some d)) =
        .ok ((m2.poll s2).1, .second (m2.poll s2).2)) := by
  constructor
  · intro r hr
    simp [TryChain.poll, h1, hr]
  · intro s2 hs2
    cases h2 : m2.poll s2 with
    | mk p s2x => simp [TryChain.poll, h1, hs2, h2]

/-- Witness for C4 at concrete inputs: the short-circuit action returns the
result immediately with state `Empty`, the future action polls the installed
second future in the same call. -/
theorem try_chain_first_ready_dispatch_witness :
    TryChain.poll exampleReady7 exampleReady9 exampleTryTransform
        (.first () (some true)) = .ok (.ready 8, .empty) ∧
    TryChain.poll exampleReady7 exampleReady9 exampleTryTransform
        (.first () (some false)) = .ok (.ready 9, .second ()) :=
  ⟨(try_chain_first_ready_dispatch exampleReady7 exampleReady9
      exampleTryTransform () true 7 () rfl).1 8 rfl,
   (try_chain_first_ready_dispatch exampleReady7 exampleReady9
      exampleTryTransform () false 7 () rfl).2 () rfl⟩

/-- C10: `CatchUnwind::poll` never propagates a panic of the inner future's
poll: an inner `Pending` is returned as `Pending`, an inner `Ready(v)` as
`Ready(Ok(v))`, and an inner panic with payload `e` as `Ready(Err(e))`. -/
theorem catch_unwind_poll_spec (m : PFutM σ α π) (s : σ) :
    (∀ e, m.poll s = .error e →
      CatchUnwind.poll m s = (.ready (.error e), s)) ∧
    (∀ sx, m.poll s = .ok (.pending, sx) →
      CatchUnwind.poll m s = (.pending, sx)) ∧
    (∀ v sx, m.poll s = .ok (.ready v, sx) →
      CatchUnwind.poll m s = (.ready (.ok v), sx)) := by
  refine ⟨fun e he => ?_, fun sx h => ?_, fun v sx h => ?_⟩ <;>
    simp [CatchUnwind.poll, *, Poll.map]

/-- Witness for C10 on a future that is pending, then ready, then panicking:
all three behaviours of `CatchUnwind::poll`, at concrete states. -/
theorem catch_unwind_poll_spec_witness :
    CatchUnwind.poll exampleUnwindFut 0 = (.pending, 1) ∧
    CatchUnwind.poll exampleUnwindFut 1 = (.ready (.ok 42), 2) ∧
    CatchUnwind.poll exampleUnwindFut 2 = (.ready (.error "boom"), 2) :=
  ⟨(catch_unwind_poll_spec exampleUnwindFut 0).2.1 1 rfl,
   (catch_unwind_poll_spec exampleUnwindFut 1).2.2 42 2 rfl,
   (catch_unwind_poll_spec exampleUnwindFut 2).1 "boom" rfl⟩

/-- C8: on the Arc-backed wake handle, `clone_arc_raw` increases the owner's
strong count by exactly one, leaves the wake count alone and returns a
`RawWaker` with the same data pointer and vtable; `drop_arc_raw` decreases the
strong count by exactly one (and touches nothing else); `wake_arc_raw`
invokes the owner's `ArcWake::wake` exactly once and leaves the strong count
unchanged. -/
theorem arc_wake_refcount_spec (s : ArcState) (ptr vt : Nat) :
    ((clone_arc_raw ptr vt s).1.strong = s.strong + 1 ∧
     (clone_arc_raw ptr vt s).1.wakes = s.wakes ∧
     (clone_arc_raw ptr vt s).2.data = ptr ∧
     (clone_arc_raw ptr vt s).2.vtable = vt) ∧
    (0 < s.strong →
      (drop_arc_raw s).strong + 1 = s.strong ∧
      (drop_arc_raw s).wakes = s.wakes) ∧
    ((wake_arc_raw s).wakes = s.wakes + 1 ∧
     (wake_arc_raw s).strong = s.strong) := by
  refine ⟨⟨rfl, rfl, rfl, rfl⟩, fun h => ⟨?_, rfl⟩, rfl, rfl⟩
  simp only [drop_arc_raw, Arc.drop, Arc.from_raw]
  omega

/-- Witness for C8 at a concrete owner with two strong references: dropping
through the vtable releases exactly one. -/
theorem arc_wake_refcount_spec_witness :
    0 < (2 : Nat) ∧
    ((drop_arc_raw ⟨2, 0⟩).strong + 1 = 2 ∧ (drop_arc_raw ⟨2, 0⟩).wakes = 0) :=
  ⟨by decide, (arc_wake_refcount_spec ⟨2, 0⟩ 1 7).2.1 (by decide)⟩

/-- C2 (code evaluation at the failing inputs): a `Chain` that has delivered
its terminal `Ready` is left in state `Second`, on which `is_terminated()`
returns `false`; and a freshly constructed, never-polled `TryChain` (state
`First`) already answers `true` — the source's match arms are inverted.  Both
contradict the claimed `FusedFuture` contract. -/
theorem is_terminated_code_divergence :
    Chain.poll exampleReady7 exampleReady9 (fun (_ : Nat) (_ : Unit) => ())
        (Chain.new () ()) = .ok (.ready 9, .second ()) ∧
    Chain.is_terminated (Chain.second () : Chain Unit Unit Unit) = false ∧
    TryChain.is_terminated (TryChain.new () () : TryChain Unit Unit Unit) = true :=
  ⟨rfl, rfl, rfl⟩

theorem chainStates_first_phase
    (m1 : FutM σ1 α) (m2 : FutM σ2 β) (f : α → δ → σ2) (s1 : σ1) (d : δ)
    (k : Nat) (h1p : ∀ i < k, m1.res s1 i = .pending) :
    ∀ i, i ≤ k →
      chainStates m1 m2 f (Chain.new s1 d) i =
        .ok (.first (m1.iter s1 i) (some d)) := by
  intro i
  induction i with
  | zero => intro _; rfl
  | succ i ih =>
    intro hik
    have hi : i < k := Nat.lt_of_lt_of_le (Nat.lt_succ_self i) hik
    have hstate := ih (Nat.le_of_lt hi)
    have hres := h1p i hi
    simp only [FutM.res] at hres
    cases hp : m1.poll (m1.iter s1 i) with
    | mk r sx =>
      rw [hp] at hres
      simp only at hres
      subst hres
      have hiter : m1.iter s1 (i + 1) = sx := by simp [FutM.iter, hp]
      simp [chainStates, hstate, Chain.poll, hp, hiter]

/-- C3: if `fut_a` is pending on its first `k` polls and ready with `v` on
poll `k + 1`, and the second future built by `transform(v)` (here
`f v d`) is pending on its first `m` polls and ready with `w` on poll
`m + 1`, then the composed `Chain` is pending on exactly its first `k + m`
calls and ready with `w` on call `k + m + 1` (`chainRes … n` is the result of
call `n + 1`) — never fewer, never more pending calls, and no panic. -/
theorem chain_pending_exact_count
    (m1 : FutM σ1 α) (m2 : FutM σ2 β) (f : α → δ → σ2)
    (s1 : σ1) (d : δ) (k m : Nat) (v : α) (w : β)
    (h1p : ∀ i < k, m1.res s1 i = .pending)
    (h1r : m1.res s1 k = .ready v)
    (h2p : ∀ j < m, m2.res (f v d) j = .pending)
    (h2r : m2.res (f v d) m = .ready w) :
    (∀ i < k + m, chainRes m1 m2 f (Chain.new s1 d) i = .ok .pending) ∧
    chainRes m1 m2 f (Chain.new s1 d) (k + m) = .ok (.ready w) := by
  have hphase1 := chainStates_first_phase m1 m2 f s1 d k h1p
  simp only [FutM.res] at h1r
  cases hpk : m1.poll (m1.iter s1 k) with
  | mk r1 s1x =>
    rw [hpk] at h1r
    simp only at h1r
    subst h1r
    cases hq0 : m2.poll (f v d) with
    | mk r2 s2x =>
      have hs2x : m2.iter (f v d) 1 = s2x := by simp [FutM.iter, hq0]
      by_cases hm : m = 0
      · subst hm
        have hr2 : r2 = .ready w := by
          simp only [FutM.res, FutM.iter] at h2r
          rw [hq0] at h2r
          simpa using h2r
        subst hr2
        constructor
        · intro i hi
          simp only [Nat.add_zero] at hi
          have hst := hphase1 i (Nat.le_of_lt hi)
          have hres := h1p i hi
          simp only [FutM.res] at hres
          cases hpi : m1.poll (m1.iter s1 i) with
          | mk ri six =>
            rw [hpi] at hres
            simp only at hres
            subst hres
            simp [chainRes, hst, Chain.poll, hpi]
        · have hst := hphase1 k le_rfl
          simp [chainRes, hst, Chain.poll, hpk, hq0]
      · have hm1 : 1 ≤ m := Nat.one_le_iff_ne_zero.mpr hm
        have hr2 : r2 = .pending := by
          have h0 := h2p 0 (by omega)
          simp only [FutM.res, FutM.iter] at h0
          rw [hq0] at h0
          simpa using h0
        subst hr2
        have hphase2 : ∀ j, 1 ≤ j → j ≤ m →
            chainStates m1 m2 f (Chain.new s1 d) (k + j) =
              .ok (.second (m2.iter (f v d) j)) := by
          intro j
          induction j with
          | zero => intro h; omega
          | succ j ihj =>
            intro h1j hjm
            by_cases hj0 : j = 0
            · subst hj0
              have hst := hphase1 k le_rfl
              simp [chainStates, hst, Chain.poll, hpk, hq0, hs2x]
            · have hj1 : 1 ≤ j := Nat.one_le_iff_ne_zero.mpr hj0
              have hstj := ihj hj1 (by omega)
              have hresj := h2p j (by omega)
              simp only [FutM.res] at hresj
              cases hpj : m2.poll (m2.iter (f v d) j) with
              | mk rj sjx =>
                rw [hpj] at hresj
                simp only at hresj
                subst hresj
                have hiterj : m2.iter (f v d) (j + 1) = sjx := by
                  simp [FutM.iter, hpj]
                have harith : k + (j + 1) = (k + j) + 1 := by omega
                rw [harith]
                simp [chainStates, hstj, Chain.poll, hpj, hiterj]
        constructor
        · intro i hi
          rcases Nat.lt_or_ge i k with hik | hik
          · have hst := hphase1 i (Nat.le_of_lt hik)
            have hres := h1p i hik
            simp only [FutM.res] at hres
            cases hpi : m1.poll (m1.iter s1 i) with
            | mk ri six =>
              rw [hpi] at hres
              simp only at hres
              subst hres
              simp [chainRes, hst, Chain.poll, hpi]
          · rcases Nat.eq_or_lt_of_le hik with hik' | hik'
            · have hst := hphase1 k le_rfl
              rw [← hik']
              simp [chainRes, hst, Chain.poll, hpk, hq0]
            · obtain ⟨j, rfl⟩ : ∃ j, i = k + j := ⟨i - k, by omega⟩
              have hj1 : 1 ≤ j := by omega
              have hjm : j < m := by omega
              have hstj := hphase2 j hj1 (Nat.le_of_lt hjm)
              have hresj := h2p j hjm
              simp only [FutM.res] at hresj
              cases hpj : m2.poll (m2.iter (f v d) j) with
              | mk rj sjx =>
                rw [hpj] at hresj
                simp only at hresj
                subst hresj
                simp [chainRes, hstj, Chain.poll, hpj]
        · have hstm := hphase2 m hm1 le_rfl
          simp only [FutM.res] at h2r
          cases hpm : m2.poll (m2.iter (f v d) m) with
          | mk rm smx =>
            rw [hpm] at h2r
            simp only at h2r
            subst h2r
            simp [chainRes, hstm, Chain.poll, hpm]

/-- Witness for C3 with `k = 1`, `m = 1`: two countdown futures; the chain is
pending on call 1 and ready with `9` on call 3 (`k + m + 1`). -/
theorem chain_pending_exact_count_witness :
    chainRes (exampleCountdown 3) (exampleCountdown 9)
      (fun (_ : Nat) (_ : Unit) => 1) (Chain.new 1 ()) 2 = .ok (.ready 9) ∧
    chainRes (exampleCountdown 3) (exampleCountdown 9)
      (fun (_ : Nat) (_ : Unit) => 1) (Chain.new 1 ()) 0 = .ok .pending :=
  have h := chain_pending_exact_count (exampleCountdown 3) (exampleCountdown 9)
    (fun (_ : Nat) (_ : Unit) => 1) 1 () 1 1 3 9
    (by intro i hi; obtain rfl := Nat.lt_one_iff.mp hi; decide)
    (by decide)
    (by intro j hj; obtain rfl := Nat.lt_one_iff.mp hj; decide)
    (by decide)
  ⟨h.2, h.1 0 (by decide)⟩

theorem fusePoll_done (m : PFutM σ (Option ι) π) (s : Fuse σ)
    (h : s.done = true) :
    Fuse.poll_next m s = .ok (.ready none, s, false) := by
  simp [Fuse.poll_next, h]

theorem fusePoll_ready_none_done (m : PFutM σ (Option ι) π)
    {s sx : Fuse σ} {b : Bool}
    (h : Fuse.poll_next m s = .ok (.ready none, sx, b)) : sx.done = true := by
  by_cases hd : s.done
  · simp [Fuse.poll_next, hd] at h
    obtain ⟨h1, -⟩ := h
    rw [← h1]
    exact hd
  · simp only [Fuse.poll_next, hd, if_neg, Bool.false_eq_true, if_false] at h
    cases hp : m.poll s.stream with
    | error e => rw [hp] at h; cases h
    | ok t =>
      obtain ⟨r, st⟩ := t
      rw [hp] at h
      cases r with
      | pending => simp at h
      | ready item =>
        simp at h
        obtain ⟨hitem, h2, -⟩ := h
        rw [← h2]
        simp [hitem]

theorem fusePoll_not_none (m : PFutM σ (Option ι) π)
    {s sx : Fuse σ} {r : Poll (Option ι)} {b : Bool}
    (h : Fuse.poll_next m s = .ok (r, sx, b)) (hr : r ≠ .ready none) :
    sx.done = s.done := by
  by_cases hd : s.done
  · simp [Fuse.poll_next, hd] at h
    exact absurd h.1.symm hr
  · simp only [Bool.not_eq_true] at hd
    simp only [Fuse.poll_next, hd, Bool.false_eq_true, if_false] at h
    cases hp : m.poll s.stream with
    | error e => rw [hp] at h; cases h
    | ok t =>
      obtain ⟨r0, st⟩ := t
      rw [hp] at h
      cases r0 with
      | pending =>
        simp at h
        obtain ⟨-, h2, -⟩ := h
        rw [← h2, hd]
      | ready item =>
        simp at h
        obtain ⟨hritem, h2, -⟩ := h
        cases item with
        | none => exact absurd hritem.symm hr
        | some x => rw [← h2, hd]; simp

theorem fuseStates_succ_ok (m : PFutM σ (Option ι) π) (s0 : Fuse σ)
    (n : Nat) (sy : Fuse σ) (h : fuseStates m s0 n = .ok sy) :
    fuseStates m s0 (n + 1) =
      match Fuse.poll_next m sy with
      | .error e => .error e
      | .ok (_, sz, _) => .ok sz := by
  simp [fuseStates, h]

theorem fuseStep_ok (m : PFutM σ (Option ι) π) (s0 : Fuse σ)
    (n : Nat) (sy : Fuse σ) (h : fuseStates m s0 n = .ok sy) :
    fuseStep m s0 n = Fuse.poll_next m sy := by
  simp [fuseStep, h]

theorem fuseStates_fixed (m : PFutM σ (Option ι) π) (s0 : Fuse σ)
    (n0 : Nat) (si : Fuse σ)
    (hst : fuseStates m s0 n0 = .ok si) (hd : si.done = true) :
    ∀ d, fuseStates m s0 (n0 + d) = .ok si := by
  intro d
  induction d with
  | zero => simpa using hst
  | succ d ih =>
    have harith : n0 + (d + 1) = (n0 + d) + 1 := by omega
    rw [harith]
    simp [fuseStates, ih, fusePoll_done m si hd]

/-- C9: for every underlying stream machine and every poll sequence on
`Fuse` started at `Fuse::new`: once call `i + 1` has returned `Ready(None)`
(leaving state `si`), every later call returns `Ready(None)` from the same
state without invoking the underlying stream (`false` flag) and without
panicking (the outcome is `.ok`), and `is_terminated()` is `true` from that
point on; before any call has returned `Ready(None)` (and no panic has
escaped), `is_terminated()` is `false`. -/
theorem fuse_terminal_idempotent (m : PFutM σ (Option ι) π) (st0 : σ) :
    (∀ i si bi, fuseStep m (Fuse.new st0) i = .ok (.ready none, si, bi) →
      si.done = true ∧ Fuse.is_terminated si = true ∧
      ∀ j, i < j → fuseStep m (Fuse.new st0) j = .ok (.ready none, si, false)) ∧
    (∀ n sx, fuseStates m (Fuse.new st0) n = .ok sx →
      (∀ l r sl bl, l < n →
        fuseStep m (Fuse.new st0) l = .ok (r, sl, bl) → r ≠ .ready none) →
      Fuse.is_terminated sx = false) := by
  constructor
  · intro i si bi h
    unfold fuseStep at h
    cases hsi : fuseStates m (Fuse.new st0) i with
    | error e => rw [hsi] at h; simp at h
    | ok sy =>
      rw [hsi] at h
      have h' : Fuse.poll_next m sy = .ok (.ready none, si, bi) := h
      have hdone : si.done = true := fusePoll_ready_none_done m h'
      have hstates : fuseStates m (Fuse.new st0) (i + 1) = .ok si := by
        rw [fuseStates_succ_ok m (Fuse.new st0) i sy hsi, h']
      refine ⟨hdone, hdone, ?_⟩
      intro j hij
      obtain ⟨d, rfl⟩ : ∃ d, j = (i + 1) + d := ⟨j - (i + 1), by omega⟩
      have hfix := fuseStates_fixed m (Fuse.new st0) (i + 1) si hstates hdone d
      rw [fuseStep_ok m (Fuse.new st0) ((i + 1) + d) si hfix]
      exact fusePoll_done m si hdone
  · intro n
    induction n with
    | zero =>
      intro sx hsx _
      simp only [fuseStates] at hsx
      cases hsx
      rfl
    | succ n ih =>
      intro sx hsx hno
      cases hsn : fuseStates m (Fuse.new st0) n with
      | error e =>
        rw [fuseStates, hsn] at hsx
        simp at hsx
      | ok sy =>
        rw [fuseStates_succ_ok m (Fuse.new st0) n sy hsn] at hsx
        cases hp : Fuse.poll_next m sy with
        | error e => rw [hp] at hsx; simp at hsx
        | ok t =>
          obtain ⟨r, sz, b⟩ := t
          rw [hp] at hsx
          simp at hsx
          subst hsx
          have hyfalse : Fuse.is_terminated sy = false :=
            ih sy hsn (fun l r0 sl bl hl => hno l r0 sl bl (by omega))
          have hr : r ≠ .ready none := by
            refine hno n r sz b (by omega) ?_
            rw [fuseStep_ok m (Fuse.new st0) n sy hsn, hp]
          have hsame := fusePoll_not_none m hp hr
          unfold Fuse.is_terminated at hyfalse ⊢
          rw [hsame, hyfalse]

/-- Witness for C9: a stream that yields one item, terminates, and would
panic on any further poll; call 2 returns `Ready(None)`, and call 3 returns
`Ready(None)` again from the same state, without touching the inner stream
and without panicking. -/
theorem fuse_terminal_idempotent_witness :
    fuseStep exampleFuseStream (Fuse.new 0) 2 =
      .ok (.ready none, ⟨2, true⟩, false) :=
  ((fuse_terminal_idempotent exampleFuseStream 0).1 1 ⟨2, true⟩ true
    (by rfl)).2.2 2 (by omega)

theorem runU_eq (sched : FuturesUnordered α) :
    runU sched = sched.map eventPoll ++ [.ready none] := by
  induction sched with
  | nil => rfl
  | cons e rest ih =>
    cases e with
    | none => simp [runU, eventPoll, ih]
    | some v => simp [runU, eventPoll, ih]

/-- C7 (spec-modelled): a `FuturesUnordered` whose completions are (in some
order) exactly the `values` of the pushed futures, polled to exhaustion,
yields each of the values exactly once — the non-terminal poll results
contain no `Ready(None)`, and the run ends with exactly one terminal
`Ready(None)`; moreover `poll_next` on an empty registry immediately returns
`Ready(None)`. -/
theorem futures_unordered_drain_spec (values : List α)
    (sched : FuturesUnordered α)
    (h : (sched.filterMap id).Perm values) :
    (∃ body, runU sched = body ++ [.ready none] ∧
      (∀ r ∈ body, r ≠ .ready none) ∧
      (body.filterMap pollValue).Perm values) ∧
    pollNextU ([] : FuturesUnordered α) = (.ready none, []) := by
  refine ⟨⟨sched.map eventPoll, runU_eq sched, ?_, ?_⟩, rfl⟩
  · intro r hr
    obtain ⟨e, he, rfl⟩ := List.mem_map.mp hr
    cases e with
    | none => simp [eventPoll]
    | some v => simp [eventPoll]
  · rw [List.filterMap_map]
    have hfun : pollValue ∘ eventPoll = (id : Option α → Option α) := by
      funext e
      cases e with
      | none => rfl
      | some v => rfl
    rw [hfun]
    exact h

/-- Witness for C7: completions `2, 4` (with one pending round), pushed
values `[4, 2]`. -/
theorem futures_unordered_drain_spec_witness :
    (∃ body, runU [none, some 2, some 4] = body ++ [Poll.ready none] ∧
      (∀ r ∈ body, r ≠ Poll.ready (none : Option Nat)) ∧
      (body.filterMap pollValue).Perm [4, 2]) ∧
    pollNextU ([] : FuturesUnordered Nat) = (.ready none, []) :=
  futures_unordered_drain_spec [4, 2] [none, some 2, some 4] (by decide)

theorem filterMap_id_cons_some (w : OrderWrapper α)
    (rest : FuturesUnordered (OrderWrapper α)) :
    (some w :: rest).filterMap id = w :: rest.filterMap id := rfl

theorem filterMap_id_cons_none (rest : FuturesUnordered (OrderWrapper α)) :
    ((none : Option (OrderWrapper α)) :: rest).filterMap id =
      rest.filterMap id := rfl

theorem mem_heapPush {x z : OrderWrapper α} {h : List (OrderWrapper α)} :
    z ∈ heapPush x h ↔ z = x ∨ z ∈ h := by
  induction h with
  | nil => simp [heapPush]
  | cons y ys ih =>
    by_cases hxy : x.index ≤ y.index
    · simp [heapPush, hxy]
    · simp only [heapPush, if_neg hxy, List.mem_cons, ih]
      tauto

theorem heapPush_sorted {x : OrderWrapper α} {h : List (OrderWrapper α)}
    (hs : heapSorted h) : heapSorted (heapPush x h) := by
  unfold heapSorted at hs ⊢
  induction h with
  | nil => simp [heapPush]
  | cons y ys ih =>
    rw [List.pairwise_cons] at hs
    obtain ⟨hy, hys⟩ := hs
    by_cases hxy : x.index ≤ y.index
    · simp only [heapPush, if_pos hxy]
      refine List.Pairwise.cons ?_ (List.Pairwise.cons hy hys)
      intro z hz
      rcases List.mem_cons.mp hz with rfl | hz'
      · exact hxy
      · exact le_trans hxy (hy z hz')
    · simp only [heapPush, if_neg hxy]
      refine List.Pairwise.cons ?_ (ih hys)
      intro z hz
      rcases mem_heapPush.mp hz with rfl | hz'
      · omega
      · exact hy z hz'

theorem heapPush_perm (x : OrderWrapper α) (h : List (OrderWrapper α)) :
    (heapPush x h).Perm (x :: h) := by
  induction h with
  | nil => simp [heapPush]
  | cons y ys ih =>
    by_cases hxy : x.index ≤ y.index
    · simp [heapPush, hxy]
    · simp only [heapPush, if_neg hxy]
      exact (ih.cons y).trans (List.Perm.swap x y ys)

theorem heapPush_length (x : OrderWrapper α) (h : List (OrderWrapper α)) :
    (heapPush x h).length = h.length + 1 := by
  have := (heapPush_perm x h).length_eq
  simpa using this

theorem pollLoop_spec (out : Nat) :
    ∀ (sched : FuturesUnordered (OrderWrapper α)) (heap : List (OrderWrapper α)),
      heapSorted heap →
      (∃ heapx schedx,
        pollLoop out heap sched = (.pending, out, heapx, schedx) ∧
        heapSorted heapx ∧
        (heapx ++ schedx.filterMap id).Perm (heap ++ sched.filterMap id) ∧
        heapx.length + schedx.length + 1 = heap.length + sched.length) ∨
      (∃ w heapx schedx,
        pollLoop out heap sched = (.ready (some w.data), out + 1, heapx, schedx) ∧
        w.index = out ∧
        heapSorted heapx ∧
        (w :: (heapx ++ schedx.filterMap id)).Perm (heap ++ sched.filterMap id) ∧
        heapx.length + schedx.length + 1 = heap.length + sched.length) ∨
      (∃ heapx,
        pollLoop out heap sched = (.ready none, out, heapx, []) ∧
        heapSorted heapx ∧
        heapx.Perm (heap ++ sched.filterMap id) ∧
        (∀ w ∈ sched.filterMap id, w.index ≠ out)) := by
  intro sched
  induction sched with
  | nil =>
    intro heap hs
    right; right
    exact ⟨heap, rfl, hs, by simp, by simp⟩
  | cons e rest ih =>
    intro heap hs
    cases e with
    | none =>
      left
      refine ⟨heap, rest, rfl, hs, ?_, ?_⟩
      · rw [filterMap_id_cons_none]
      · rw [List.length_cons]
        omega
    | some w =>
      by_cases hw : w.index = out
      · right; left
        refine ⟨w, heap, rest, ?_, hw, hs, ?_, ?_⟩
        · simp [pollLoop, hw]
        · rw [filterMap_id_cons_some]
          exact List.perm_middle.symm
        · rw [List.length_cons]
          omega
      · have hs' := heapPush_sorted (x := w) hs
        have hstep : pollLoop out heap (some w :: rest) =
            pollLoop out (heapPush w heap) rest := by
          simp [pollLoop, hw]
        have hP : (heapPush w heap ++ rest.filterMap id).Perm
            (heap ++ (some w :: rest).filterMap id) := by
          rw [filterMap_id_cons_some]
          have h1 : (heapPush w heap ++ rest.filterMap id).Perm
              ((w :: heap) ++ rest.filterMap id) :=
            (heapPush_perm w heap).append_right _
          have h3 : (w :: (heap ++ rest.filterMap id)).Perm
              (heap ++ w :: rest.filterMap id) := List.perm_middle.symm
          exact h1.trans h3
        have hL : (heapPush w heap).length + rest.length =
            heap.length + (some w :: rest).length := by
          rw [heapPush_length, List.length_cons]
          omega
        rcases ih (heapPush w heap) hs' with
          ⟨heapx, schedx, heq, hsx, hperm, hlen⟩ |
          ⟨w', heapx, schedx, heq, hw', hsx, hperm, hlen⟩ |
          ⟨heapx, heq, hsx, hperm, hall⟩
        · left
          refine ⟨heapx, schedx, ?_, hsx, hperm.trans hP, by omega⟩
          rw [hstep, heq]
        · right; left
          refine ⟨w', heapx, schedx, ?_, hw', hsx, hperm.trans hP, by omega⟩
          rw [hstep, heq]
        · right; right
          refine ⟨heapx, ?_, hsx, hperm.trans hP, ?_⟩
          · rw [hstep, heq]
          · rw [filterMap_id_cons_some]
            intro z hz
            rcases List.mem_cons.mp hz with rfl | hz'
            · exact hw
            · exact hall z hz'

theorem poll_next_loop_case {s : FuturesOrdered α} (hwf : s.wf)
    (hne : s.next_outgoing_index < s.next_incoming_index)
    (hpoll : s.poll_next = s.pollInto)
    (hnh : s.next_outgoing_index ∉ s.queued_outputs.map OrderWrapper.index) :
    s.stepSpec := by
  obtain ⟨hsort, hle, hperm⟩ := hwf
  have hk : s.next_incoming_index - s.next_outgoing_index =
      (s.next_incoming_index - (s.next_outgoing_index + 1)) + 1 := by omega
  have hrange : List.range' s.next_outgoing_index
      (s.next_incoming_index - s.next_outgoing_index) =
      s.next_outgoing_index :: List.range' (s.next_outgoing_index + 1)
        (s.next_incoming_index - (s.next_outgoing_index + 1)) := by
    rw [hk, List.range'_succ]
  have hmem_out : s.next_outgoing_index ∈
      s.wrappers.map OrderWrapper.index := by
    rw [hperm.mem_iff, hrange]
    exact List.mem_cons_self _ _
  have hout_sched : s.next_outgoing_index ∈
      (s.in_progress_queue.filterMap id).map OrderWrapper.index := by
    have h0 : s.wrappers.map OrderWrapper.index =
        s.queued_outputs.map OrderWrapper.index ++
        (s.in_progress_queue.filterMap id).map OrderWrapper.index := by
      rw [FuturesOrdered.wrappers, List.map_append]
    rw [h0] at hmem_out
    rcases List.mem_append.mp hmem_out with h | h
    · exact absurd h hnh
    · exact h
  rcases pollLoop_spec s.next_outgoing_index s.in_progress_queue
      s.queued_outputs hsort with
    ⟨heapx, schedx, heq, hsx, hpermL, hlen⟩ |
    ⟨w, heapx, schedx, heq, hwi, hsx, hpermL, hlen⟩ |
    ⟨heapx, heq, hsx, hpermL, hall⟩
  · right
    refine ⟨⟨schedx, heapx, s.next_incoming_index, s.next_outgoing_index⟩,
      ?_, ⟨hsx, hle, ?_⟩, rfl, rfl, hpermL, ?_⟩
    · rw [hpoll]
      simp [FuturesOrdered.pollInto, heq]
    · exact (hpermL.map OrderWrapper.index).trans hperm
    · simp only [FuturesOrdered.measure]
      omega
  · left
    have hperm2 := hperm
    rw [hrange] at hperm2
    refine ⟨w, ⟨schedx, heapx, s.next_incoming_index, s.next_outgoing_index + 1⟩,
      ?_, hwi, ⟨hsx,
        (show s.next_outgoing_index + 1 ≤ s.next_incoming_index by omega),
        ?_⟩, rfl, rfl, hpermL, ?_⟩
    · rw [hpoll]
      simp [FuturesOrdered.pollInto, heq]
    · have hmap := hpermL.map OrderWrapper.index
      rw [List.map_cons, hwi] at hmap
      exact (hmap.trans hperm2).cons_inv
    · simp only [FuturesOrdered.measure]
      omega
  · obtain ⟨w, hwfm, hwi⟩ := List.mem_map.mp hout_sched
    exact absurd hwi (hall w hwfm)

theorem poll_next_step {s : FuturesOrdered α} (hwf : s.wf)
    (hne : s.next_outgoing_index < s.next_incoming_index) :
    s.stepSpec := by
  cases hheap : s.queued_outputs with
  | nil =>
    apply poll_next_loop_case hwf hne
    · simp [FuturesOrdered.poll_next, hheap]
    · rw [hheap]
      simp
  | cons next restHeap =>
    by_cases hni : next.index = s.next_outgoing_index
    · left
      obtain ⟨hsort, hle, hperm⟩ := hwf
      unfold heapSorted at hsort
      rw [hheap] at hsort
      have hsort' : heapSorted restHeap := (List.pairwise_cons.mp hsort).2
      have hk : s.next_incoming_index - s.next_outgoing_index =
          (s.next_incoming_index - (s.next_outgoing_index + 1)) + 1 := by omega
      have hrange : List.range' s.next_outgoing_index
          (s.next_incoming_index - s.next_outgoing_index) =
          s.next_outgoing_index :: List.range' (s.next_outgoing_index + 1)
            (s.next_incoming_index - (s.next_outgoing_index + 1)) := by
        rw [hk, List.range'_succ]
      have hperm2 := hperm
      rw [FuturesOrdered.wrappers, hheap, hrange] at hperm2
      refine ⟨next,
        { s with queued_outputs := restHeap,
                 next_outgoing_index := s.next_outgoing_index + 1 },
        ?_, hni, ⟨hsort',
          (show s.next_outgoing_index + 1 ≤ s.next_incoming_index by omega),
          ?_⟩, rfl, rfl, ?_, ?_⟩
      · simp [FuturesOrdered.poll_next, hheap, hni]
      · have hmap : (((next :: restHeap) ++
            s.in_progress_queue.filterMap id).map OrderWrapper.index) =
            next.index :: ((restHeap ++
              s.in_progress_queue.filterMap id).map OrderWrapper.index) := by
          simp
        rw [hmap, hni] at hperm2
        exact hperm2.cons_inv
      · rw [FuturesOrdered.wrappers, FuturesOrdered.wrappers, hheap]
        exact List.Perm.refl _
      · simp only [FuturesOrdered.measure, hheap, List.length_cons]
        omega
    · apply poll_next_loop_case hwf hne
      · simp [FuturesOrdered.poll_next, hheap, hni]
      · rw [hheap]
        intro hmem
        obtain ⟨z, hz, hzi⟩ := List.mem_map.mp hmem
        obtain ⟨hsort, hle, hperm⟩ := hwf
        unfold heapSorted at hsort
        rw [hheap] at hsort
        rcases List.mem_cons.mp hz with rfl | hzr
        · exact hni hzi
        · have h1 : next.index ≤ z.index := (List.pairwise_cons.mp hsort).1 z hzr
          have h2 : s.next_outgoing_index ≤ next.index := by
            have hmm : next.index ∈ s.wrappers.map OrderWrapper.index := by
              apply List.mem_map_of_mem
              rw [FuturesOrdered.wrappers, hheap]
              exact List.mem_append_left _ (List.mem_cons_self _ _)
            rw [hperm.mem_iff] at hmm
            exact (List.mem_range'_1.mp hmm).1
          exact hni (by omega)

theorem wf_terminal_empty {s : FuturesOrdered α} (hwf : s.wf)
    (heq : s.next_outgoing_index = s.next_incoming_index) :
    s.queued_outputs = [] ∧ s.in_progress_queue.filterMap id = [] := by
  obtain ⟨-, -, hperm⟩ := hwf
  have h0 : s.next_incoming_index - s.next_outgoing_index = 0 := by omega
  rw [h0] at hperm
  have hmapnil : s.wrappers.map OrderWrapper.index = [] := hperm.eq_nil
  have hnil : s.wrappers = [] := List.map_eq_nil_iff.mp hmapnil
  rw [FuturesOrdered.wrappers] at hnil
  exact List.append_eq_nil.mp hnil

theorem poll_next_terminal_nil {s : FuturesOrdered α}
    (hheap : s.queued_outputs = []) (hsched : s.in_progress_queue = []) :
    s.poll_next = (.ready none, s) := by
  obtain ⟨sched, heap, inc, out⟩ := s
  simp only at hheap hsched
  subst hheap hsched
  simp [FuturesOrdered.poll_next, FuturesOrdered.pollInto, pollLoop]

theorem poll_next_terminal_pending {s : FuturesOrdered α}
    (hheap : s.queued_outputs = [])
    {rest : FuturesUnordered (OrderWrapper α)}
    (hsched : s.in_progress_queue = none :: rest) :
    s.poll_next = (.pending, { s with in_progress_queue := rest }) := by
  obtain ⟨sched, heap, inc, out⟩ := s
  simp only at hheap hsched
  subst hheap hsched
  simp [FuturesOrdered.poll_next, FuturesOrdered.pollInto, pollLoop]

theorem wf_new : (FuturesOrdered.new α).wf := by
  refine ⟨List.Pairwise.nil, le_rfl, ?_⟩
  simp [FuturesOrdered.new, FuturesOrdered.wrappers]

theorem wf_pushAt {s : FuturesOrdered α} (hwf : s.wf) (v : α) (pos : Nat) :
    (s.pushAt v pos).wf := by
  obtain ⟨hsort, hle, hperm⟩ := hwf
  have hins : ((s.in_progress_queue.insertIdx
      (min pos s.in_progress_queue.length)
      (some ⟨v, s.next_incoming_index⟩)).filterMap id).Perm
      ((⟨v, s.next_incoming_index⟩ : OrderWrapper α) ::
        s.in_progress_queue.filterMap id) := by
    have hp := List.perm_insertIdx (some (⟨v, s.next_incoming_index⟩ : OrderWrapper α))
      s.in_progress_queue (Nat.min_le_right pos s.in_progress_queue.length)
    have hfm := hp.filterMap id
    rw [filterMap_id_cons_some] at hfm
    exact hfm
  refine ⟨hsort,
    (show s.next_outgoing_index ≤ s.next_incoming_index + 1 by omega), ?_⟩
  have h1 : ((s.pushAt v pos).wrappers).Perm
      ((⟨v, s.next_incoming_index⟩ : OrderWrapper α) :: s.wrappers) := by
    have ha := hins.append_left s.queued_outputs
    exact ha.trans List.perm_middle
  have hmap := h1.map OrderWrapper.index
  rw [List.map_cons] at hmap
  have h2 := hmap.trans ((hperm.cons s.next_incoming_index))
  have h3 : (s.next_incoming_index :: List.range' s.next_outgoing_index
      (s.next_incoming_index - s.next_outgoing_index)).Perm
      (List.range' s.next_outgoing_index
        (s.next_incoming_index + 1 - s.next_outgoing_index)) := by
    have hk : s.next_incoming_index + 1 - s.next_outgoing_index =
        (s.next_incoming_index - s.next_outgoing_index) + 1 := by omega
    have hc : List.range' s.next_outgoing_index
        ((s.next_incoming_index - s.next_outgoing_index) + 1) =
        List.range' s.next_outgoing_index
          (s.next_incoming_index - s.next_outgoing_index) ++
          [s.next_outgoing_index +
            (s.next_incoming_index - s.next_outgoing_index)] := by
      simpa using @List.range'_concat 1 s.next_outgoing_index
        (s.next_incoming_index - s.next_outgoing_index)
    have hval : s.next_outgoing_index +
        (s.next_incoming_index - s.next_outgoing_index) =
        s.next_incoming_index := by omega
    rw [hk, hc, hval]
    exact (List.perm_append_singleton _ _).symm
  exact h2.trans h3

theorem wf_insertPendingAt {s : FuturesOrdered α} (hwf : s.wf) (pos : Nat) :
    (s.insertPendingAt pos).wf := by
  obtain ⟨hsort, hle, hperm⟩ := hwf
  have hins : ((s.in_progress_queue.insertIdx
      (min pos s.in_progress_queue.length)
      (none : Option (OrderWrapper α))).filterMap id).Perm
      (s.in_progress_queue.filterMap id) := by
    have hp := List.perm_insertIdx (none : Option (OrderWrapper α))
      s.in_progress_queue (Nat.min_le_right pos s.in_progress_queue.length)
    have hfm := hp.filterMap id
    rw [filterMap_id_cons_none] at hfm
    exact hfm
  refine ⟨hsort, hle, ?_⟩
  have h1 : ((s.insertPendingAt pos).wrappers).Perm s.wrappers :=
    hins.append_left s.queued_outputs
  exact (h1.map OrderWrapper.index).trans hperm

theorem wf_poll {s : FuturesOrdered α} (hwf : s.wf) : s.poll_next.2.wf := by
  rcases Nat.lt_or_ge s.next_outgoing_index s.next_incoming_index with hlt | hge
  · rcases poll_next_step hwf hlt with
      ⟨w, sx, hpoll, -, hwfx, -⟩ | ⟨sx, hpoll, hwfx, -⟩
    · rw [hpoll]
      exact hwfx
    · rw [hpoll]
      exact hwfx
  · have heqq : s.next_outgoing_index = s.next_incoming_index := by
      have := hwf.2.1
      omega
    obtain ⟨hheap, hfm⟩ := wf_terminal_empty hwf heqq
    cases hsched : s.in_progress_queue with
    | nil =>
      rw [poll_next_terminal_nil hheap hsched]
      exact hwf
    | cons e rest =>
      cases e with
      | none =>
        rw [poll_next_terminal_pending hheap hsched]
        refine ⟨hwf.1, hwf.2.1, ?_⟩
        have hperm := hwf.2.2
        rw [FuturesOrdered.wrappers, hheap, hsched, filterMap_id_cons_none]
          at hperm
        simpa [FuturesOrdered.wrappers, hheap] using hperm
      | some w =>
        rw [hsched, filterMap_id_cons_some] at hfm
        cases hfm

theorem reach_wf {s : FuturesOrdered α} (h : FuturesOrdered.Reach s) :
    s.wf := by
  induction h with
  | new => exact wf_new
  | push v pos hr ih => exact wf_pushAt ih v pos
  | pendingRound pos hr ih => exact wf_insertPendingAt ih pos
  | poll hr ih => exact wf_poll ih

/-- C6: in every state of `FuturesOrdered` reachable from `new()` by any
sequence of `push` and `poll_next` calls (the inner registry yielding each
pushed wrapper's output exactly once, at an arbitrary point of the trace,
possibly interleaved with pending rounds), whenever `poll_next` returns
`Ready(None)`, both the inner unordered registry and the `queued_outputs`
staging heap are empty. -/
theorem futures_ordered_ready_none_all_empty {s : FuturesOrdered α}
    (hreach : FuturesOrdered.Reach s)
    (h : s.poll_next.1 = .ready none) :
    s.in_progress_queue = [] ∧ s.queued_outputs = [] := by
  have hwf := reach_wf hreach
  rcases Nat.lt_or_ge s.next_outgoing_index s.next_incoming_index with hlt | hge
  · rcases poll_next_step hwf hlt with
      ⟨w, sx, hpoll, -⟩ | ⟨sx, hpoll, -⟩
    · rw [hpoll] at h
      simp at h
    · rw [hpoll] at h
      simp at h
  · have heqq : s.next_outgoing_index = s.next_incoming_index := by
      have := hwf.2.1
      omega
    obtain ⟨hheap, hfm⟩ := wf_terminal_empty hwf heqq
    cases hsched : s.in_progress_queue with
    | nil => exact ⟨rfl, hheap⟩
    | cons e rest =>
      cases e with
      | none =>
        rw [poll_next_terminal_pending hheap hsched] at h
        simp at h
      | some w =>
        rw [hsched, filterMap_id_cons_some] at hfm
        cases hfm

/-- Witness for C6: push one future onto a fresh queue, poll it to
completion, then observe the `Ready(None)` poll — both structures are empty. -/
theorem futures_ordered_ready_none_all_empty_witness :
    ((FuturesOrdered.new Nat).pushAt 5 0).poll_next.2.in_progress_queue = [] ∧
    ((FuturesOrdered.new Nat).pushAt 5 0).poll_next.2.queued_outputs = [] :=
  futures_ordered_ready_none_all_empty
    (FuturesOrdered.Reach.poll
      (FuturesOrdered.Reach.push 5 0 FuturesOrdered.Reach.new))
    (by rfl)

theorem drainFuel_terminal :
    ∀ (fuel : Nat) (s : FuturesOrdered α), s.wf →
      s.next_outgoing_index = s.next_incoming_index →
      FuturesOrdered.drainFuel fuel s = [] := by
  intro fuel
  induction fuel with
  | zero => intro s _ _; rfl
  | succ fuel ih =>
    intro s hwf heqq
    obtain ⟨hheap, hfm⟩ := wf_terminal_empty hwf heqq
    cases hsched : s.in_progress_queue with
    | nil =>
      simp [FuturesOrdered.drainFuel, poll_next_terminal_nil hheap hsched]
    | cons e rest =>
      cases e with
      | none =>
        have hp := poll_next_terminal_pending hheap hsched
        have hwf2 := wf_poll hwf
        rw [hp] at hwf2
        simp only [FuturesOrdered.drainFuel, hp]
        exact ih _ hwf2 heqq
      | some w =>
        rw [hsched, filterMap_id_cons_some] at hfm
        cases hfm

theorem drainFuel_spec (val : Nat → α) :
    ∀ (fuel : Nat) (s : FuturesOrdered α), s.wf →
      (∀ w ∈ s.wrappers, w.data = val w.index) →
      s.measure < fuel →
      FuturesOrdered.drainFuel fuel s =
        (List.range' s.next_outgoing_index
          (s.next_incoming_index - s.next_outgoing_index)).map val := by
  intro fuel
  induction fuel with
  | zero => intro s _ _ h; omega
  | succ fuel ih =>
    intro s hwf hdata hm
    rcases Nat.lt_or_ge s.next_outgoing_index s.next_incoming_index with hlt | hge
    · rcases poll_next_step hwf hlt with
        ⟨w, sx, hpoll, hwidx, hwfx, hout, hinc, hpw, hmx⟩ |
        ⟨sx, hpoll, hwfx, hout, hinc, hpw, hmx⟩
      · have hdx : ∀ z ∈ sx.wrappers, z.data = val z.index := by
          intro z hz
          exact hdata z (hpw.subset (List.mem_cons_of_mem w hz))
        have hwv : w.data = val s.next_outgoing_index := by
          rw [← hwidx]
          exact hdata w (hpw.subset (List.mem_cons_self _ _))
        have hrec := ih sx hwfx hdx (by omega)
        have hk : s.next_incoming_index - s.next_outgoing_index =
            (s.next_incoming_index - (s.next_outgoing_index + 1)) + 1 := by
          omega
        simp only [FuturesOrdered.drainFuel, hpoll]
        rw [hrec, hout, hinc, hwv, hk, List.range'_succ, List.map_cons]
      · have hdx : ∀ z ∈ sx.wrappers, z.data = val z.index := fun z hz =>
          hdata z (hpw.subset hz)
        have hrec := ih sx hwfx hdx (by omega)
        simp only [FuturesOrdered.drainFuel, hpoll]
        rw [hrec, hout, hinc]
    · have heqq : s.next_outgoing_index = s.next_incoming_index := by
        have := hwf.2.1
        omega
      rw [drainFuel_terminal (fuel + 1) s hwf heqq]
      have h0 : s.next_incoming_index - s.next_outgoing_index = 0 := by omega
      rw [h0]
      rfl

/-- C1: `n` futures pushed in order (receiving indices `0, …, n - 1`, with
eventual outputs `val 0, …, val (n - 1)`), completed by the inner unordered
registry in an arbitrary order given by the trace `sched` (pending rounds
allowed); repeatedly calling `poll_next` until exhaustion yields the `n`
outputs in push order `val 0, val 1, …, val (n - 1)`, each exactly once. -/
theorem futures_ordered_yields_push_order (val : Nat → α) (n : Nat)
    (sched : FuturesUnordered (OrderWrapper α))
    (hidx : ((sched.filterMap id).map OrderWrapper.index).Perm (List.range n))
    (hdata : ∀ w ∈ sched.filterMap id, w.data = val w.index)
    (fuel : Nat) (hfuel : sched.length < fuel) :
    FuturesOrdered.drainFuel fuel ⟨sched, [], n, 0⟩ =
      (List.range n).map val := by
  have hwf : (⟨sched, [], n, 0⟩ : FuturesOrdered α).wf := by
    refine ⟨List.Pairwise.nil, Nat.zero_le n, ?_⟩
    rw [List.range_eq_range'] at hidx
    simpa [FuturesOrdered.wrappers] using hidx
  have hd : ∀ w ∈ (⟨sched, [], n, 0⟩ : FuturesOrdered α).wrappers,
      w.data = val w.index := by
    simpa [FuturesOrdered.wrappers] using hdata
  have hmm : (⟨sched, [], n, 0⟩ : FuturesOrdered α).measure < fuel := by
    simpa [FuturesOrdered.measure] using hfuel
  have h := drainFuel_spec val fuel ⟨sched, [], n, 0⟩ hwf hd hmm
  rw [h, List.range_eq_range']
  norm_num

/-- Witness for C1: three futures with outputs 10, 11, 12 pushed in index
order 0, 1, 2, completed by the inner registry in the order
(index 1, index 0, index 2); draining yields (10, 11, 12) — push order, not
completion order (11, 10, 12). -/
theorem futures_ordered_yields_push_order_witness :
    FuturesOrdered.drainFuel 4
      (⟨[some ⟨11, 1⟩, some ⟨10, 0⟩, some ⟨12, 2⟩], [], 3, 0⟩ :
        FuturesOrdered Nat) = [10, 11, 12] := by
  have h := futures_ordered_yields_push_order (fun i => 10 + i) 3
    [some ⟨11, 1⟩, some ⟨10, 0⟩, some ⟨12, 2⟩]
    (by decide) (by decide) 4 (by decide)
  have h2 : (List.range 3).map (fun i => 10 + i) = [10, 11, 12] := by decide
  rw [h2] at h
  exact h

end FuturesRs
